import Mathlib

/-!
Shallow embedding of src/p2p/piece_tracker.rs (the per-piece download tracker
of the learntorrent BitTorrent client) and proofs about it.

Machine integers (u32/usize) are modelled as Nat; all subtractions in the
source occur under invariants that rule out underflow, which is proved below
rather than assumed. Byte buffers (BytesMut) are modelled as List Nat.
The SHA-1 digest function is an external library call; it is modelled as an
arbitrary function parameter so that every statement holds for the real hash.
-/

/-- Fixed block length in bytes, BLOCK_LEN in piece_tracker.rs. -/
def BLOCK_LEN : Nat := 16384

/-- Window capacity, MAX_PENDING_REQUESTS in piece_tracker.rs. -/
def MAX_PENDING_REQUESTS : Nat := 5

/-- A scheduled but not yet satisfied block request, PendingBlockRequest. -/
structure PendingBlockRequest where
  offset : Nat
  size : Nat
deriving DecidableEq

/-- A received block with its payload, CompletedBlockRequest. -/
structure CompletedBlockRequest where
  offset : Nat
  size : Nat
  bytes : List Nat
deriving DecidableEq

/-- The per-piece download state, PieceTracker. -/
structure PieceTracker where
  pid : Nat
  piece_size : Nat
  offset : Nat
  pending_requests : List PendingBlockRequest
  completed_requests : List CompletedBlockRequest
  remaining_bytes : Nat
deriving DecidableEq

/-- The error variant produced by this module, PeerErr::InvalidBlock. -/
inductive PeerErr where
  | InvalidBlock
deriving DecidableEq

/-- A hash-validated piece, ValidatedPiece. -/
structure ValidatedPiece where
  pid : Nat
  blocks : List CompletedBlockRequest
deriving DecidableEq

/-- The part of the torrent metadata used here: the table of expected
piece digests, Metainfo.piece_hashes. -/
structure Metainfo where
  piece_hashes : List (List Nat)
deriving DecidableEq

/-- PieceTracker::new. -/
def PieceTracker.new (piece_id : Nat) (piece_size : Nat) : PieceTracker :=
  { pid := piece_id
    piece_size := piece_size
    offset := 0
    pending_requests := []
    completed_requests := []
    remaining_bytes := piece_size }

/-- PieceTracker::next_pending_request. The Rust method mutates self and
returns an Option; here it returns the Option together with the new state. -/
def PieceTracker.next_pending_request (t : PieceTracker) :
    Option PendingBlockRequest × PieceTracker :=
  let old_offset := t.offset
  let remaining := t.piece_size - t.offset
  if remaining > BLOCK_LEN then
    (some ⟨old_offset, BLOCK_LEN⟩, { t with offset := t.offset + BLOCK_LEN })
  else if remaining > 0 then
    (some ⟨old_offset, remaining⟩, { t with offset := t.offset + remaining })
  else
    (none, t)

/-- The for-loop inside PieceTracker::next_requests. current_requests is the
pending-queue length captured before the loop, queued counts completed
iterations, and n is the number of iterations still to run. The first
component is the slice the Rust function returns, the second the final
state. The n = 0 case is the slice pending_requests[current_requests..]
returned after a full loop; the generator-exhausted case is the early
return of the slice pending_requests[..queued]. -/
def PieceTracker.next_requests_go (current_requests queued n : Nat)
    (t : PieceTracker) : List PendingBlockRequest × PieceTracker :=
  match n with
  | 0 => (t.pending_requests.drop current_requests, t)
  | m + 1 =>
    match t.next_pending_request with
    | (some pr, t1) =>
      PieceTracker.next_requests_go current_requests (queued + 1) m
        { t1 with pending_requests := t1.pending_requests ++ [pr] }
    | (none, _) => (t.pending_requests.take queued, t)

/-- PieceTracker::next_requests. Returns the slice of requests the Rust
function returns, together with the new state. -/
def PieceTracker.next_requests (t : PieceTracker) :
    List PendingBlockRequest × PieceTracker :=
  let current_requests := t.pending_requests.length
  let new_requests := MAX_PENDING_REQUESTS - current_requests
  if new_requests > 0 then
    PieceTracker.next_requests_go current_requests 0 new_requests t
  else
    ([], t)

/-- Iterator::position over a list, as used in PieceTracker::request_completed. -/
def listPosition (p : PendingBlockRequest → Bool) : List PendingBlockRequest → Option Nat
  | [] => none
  | x :: xs => if p x then some 0 else (listPosition p xs).map (· + 1)

/-- PieceTracker::request_completed. The Rust method mutates self and returns
Result of Bool; here it returns the Result together with the new state (the
state is unchanged on the error path, which in Rust returns before any
mutation). -/
def PieceTracker.request_completed (t : PieceTracker) (req : CompletedBlockRequest) :
    Except PeerErr Bool × PieceTracker :=
  match listPosition (fun pr => pr.offset == req.offset && pr.size == req.size)
      t.pending_requests with
  | none => (Except.error PeerErr.InvalidBlock, t)
  | some index =>
    let pending' := t.pending_requests.eraseIdx index
    let remaining' := t.remaining_bytes - req.size
    (Except.ok (remaining' == 0),
      { t with
        pending_requests := pending'
        remaining_bytes := remaining'
        completed_requests := t.completed_requests ++ [req] })

/-- The comparator of the sort_by call in PieceTracker::validate_piece:
ascending block offset. -/
def blockLE (a b : CompletedBlockRequest) : Prop := a.offset ≤ b.offset

instance : DecidableRel blockLE := fun a b => Nat.decLe a.offset b.offset

instance : IsTotal CompletedBlockRequest blockLE :=
  ⟨fun a b => Nat.le_total a.offset b.offset⟩

instance : IsTrans CompletedBlockRequest blockLE :=
  ⟨fun _ _ _ hab hbc => Nat.le_trans hab hbc⟩

/-- The stable sort of completed_requests by ascending offset performed by
validate_piece, Vec::sort_by with offset comparison. -/
def sortBlocks (l : List CompletedBlockRequest) : List CompletedBlockRequest :=
  List.insertionSort blockLE l

/-- The byte stream fed to the hasher by validate_piece: the payloads of the
(sorted) completed requests, concatenated in list order by the update loop. -/
def concatBytes (l : List CompletedBlockRequest) : List Nat :=
  l.foldl (fun acc b => acc ++ b.bytes) []

/-- PieceTracker::validate_piece. The sha1 parameter models the external
SHA-1 digest computation (Sha1::new / update / finalize). The outer Option
models the expect call on the digest-table lookup: none is the panic, some
is a normal return carrying the Result value the Rust function produces. -/
def PieceTracker.validate_piece (sha1 : List Nat → List Nat) (t : PieceTracker)
    (metainfo : Metainfo) : Option (Except PeerErr (Option ValidatedPiece)) :=
  let sorted := sortBlocks t.completed_requests
  let piece_hash := sha1 (concatBytes sorted)
  match metainfo.piece_hashes[t.pid]? with
  | none => none
  | some expected_hash =>
    if expected_hash = piece_hash then
      some (Except.ok (some { pid := t.pid, blocks := sorted }))
    else
      some (Except.ok none)

/-- Repeated draining of the boundary generator next_pending_request, with
explicit fuel; used to state the tiling property of the scheduler. -/
def PieceTracker.drainFuel : Nat → PieceTracker → List PendingBlockRequest
  | 0, _ => []
  | fuel + 1, t =>
    match t.next_pending_request with
    | (some pr, t1) => pr :: PieceTracker.drainFuel fuel t1
    | (none, _) => []

/-- Calling next_pending_request until it returns None. The fuel bound
piece_size / BLOCK_LEN + 1 is proved sufficient below. -/
def PieceTracker.drainAll (t : PieceTracker) : List PendingBlockRequest :=
  PieceTracker.drainFuel (t.piece_size / BLOCK_LEN + 1) t

/-- States reachable from PieceTracker::new by any sequence of next_requests
and request_completed calls (successful or failed). -/
inductive Reachable : PieceTracker → Prop where
  | new : ∀ piece_id piece_size, Reachable (PieceTracker.new piece_id piece_size)
  | next : ∀ t, Reachable t → Reachable (t.next_requests).2
  | complete : ∀ t req r t', Reachable t → t.request_completed req = (r, t') →
      Reachable t'

/-- Sum of the sizes of a list of pending requests. -/
def sumSizesP : List PendingBlockRequest → Nat
  | [] => 0
  | r :: rs => r.size + sumSizesP rs

/-- Sum of the sizes of a list of completed requests. -/
def sumSizesC : List CompletedBlockRequest → Nat
  | [] => 0
  | r :: rs => r.size + sumSizesC rs

/-- The state invariant of a PieceTracker maintained by all operations. -/
structure TrackerInv (t : PieceTracker) : Prop where
  pending_le : t.pending_requests.length ≤ MAX_PENDING_REQUESTS
  offset_le : t.offset ≤ t.piece_size
  sched : sumSizesP t.pending_requests + sumSizesC t.completed_requests = t.offset
  rem : t.remaining_bytes + sumSizesC t.completed_requests = t.piece_size
  pos : ∀ r ∈ t.pending_requests, 0 < r.size

/-- A list of requests tiles the byte range from start to stop: the first
request begins at start, requests are adjacent with positive sizes, and the
last request ends exactly at stop. -/
def tiles (start stop : Nat) : List PendingBlockRequest → Prop
  | [] => start = stop
  | r :: rs => r.offset = start ∧ 0 < r.size ∧ tiles (start + r.size) stop rs

instance instDecidableTiles : ∀ (start stop : Nat) (l : List PendingBlockRequest),
    Decidable (tiles start stop l)
  | a, b, [] => inferInstanceAs (Decidable (a = b))
  | a, b, r :: rs =>
    haveI := instDecidableTiles (a + r.size) b rs
    inferInstanceAs (Decidable (_ ∧ _ ∧ _))

/-- Concrete six-block scenario (piece_size = 6 * BLOCK_LEN) used below:
fresh tracker. -/
def sixBlockStart : PieceTracker := PieceTracker.new 0 98304

/-- Six-block scenario after one next_requests call: the window holds the
first five blocks. -/
def sixBlockWindow : PieceTracker := (sixBlockStart.next_requests).2

/-- Six-block scenario after additionally completing the blocks at offsets
0 and 16384: three old requests remain pending and one block is still
unscheduled. -/
def sixBlockAfterTwo : PieceTracker :=
  (((sixBlockWindow.request_completed ⟨0, 16384, []⟩).2).request_completed
     ⟨16384, 16384, []⟩).2

/-- Concrete single-block scenario: the whole piece scheduled in one request. -/
def oneBlockWindow : PieceTracker := ((PieceTracker.new 0 16384).next_requests).2

/-- Single-block scenario after completing its only block. -/
def oneBlockDone : PieceTracker :=
  (oneBlockWindow.request_completed ⟨0, 16384, []⟩).2

/-- listPosition returns none exactly when no element satisfies the predicate. -/
theorem listPosition_eq_none_iff (p : PendingBlockRequest → Bool)
    (l : List PendingBlockRequest) :
    listPosition p l = none ↔ ∀ x ∈ l, ¬ p x = true := by
  induction l with
  | nil => simp [listPosition]
  | cons x xs ih =>
    by_cases h : p x = true <;>
      simp [listPosition, h, Option.map_eq_none', ih]

/-- A successful listPosition yields an in-range index whose element satisfies
the predicate. -/
theorem listPosition_eq_some_spec (p : PendingBlockRequest → Bool) :
    ∀ (l : List PendingBlockRequest) (i : Nat), listPosition p l = some i →
      ∃ hi : i < l.length, p (l.get ⟨i, hi⟩) = true := by
  intro l
  induction l with
  | nil => intro i h; simp [listPosition] at h
  | cons x xs ih =>
    intro i h
    by_cases hx : p x = true
    · simp [listPosition, hx] at h
      exact h ▸ ⟨Nat.succ_pos _, hx⟩
    · simp [listPosition, hx] at h
      obtain ⟨j, hj, rfl⟩ := h
      obtain ⟨hjlt, hjp⟩ := ih j hj
      exact ⟨Nat.succ_lt_succ hjlt, hjp⟩

/-- sumSizesP distributes over append. -/
theorem sumSizesP_append (l₁ l₂ : List PendingBlockRequest) :
    sumSizesP (l₁ ++ l₂) = sumSizesP l₁ + sumSizesP l₂ := by
  induction l₁ with
  | nil => simp [sumSizesP]
  | cons x xs ih => simp [sumSizesP, ih, Nat.add_assoc]

/-- sumSizesC distributes over append. -/
theorem sumSizesC_append (l₁ l₂ : List CompletedBlockRequest) :
    sumSizesC (l₁ ++ l₂) = sumSizesC l₁ + sumSizesC l₂ := by
  induction l₁ with
  | nil => simp [sumSizesC]
  | cons x xs ih => simp [sumSizesC, ih, Nat.add_assoc]

/-- Removing the element at index i removes exactly its size from the sum. -/
theorem sumSizesP_eraseIdx : ∀ (l : List PendingBlockRequest) (i : Nat)
    (hi : i < l.length),
    sumSizesP (l.eraseIdx i) + (l.get ⟨i, hi⟩).size = sumSizesP l := by
  intro l
  induction l with
  | nil => intro i hi; simp at hi
  | cons x xs ih =>
    intro i hi
    cases i with
    | zero => simp [sumSizesP, Nat.add_comm]
    | succ j =>
      have hj : j < xs.length := Nat.lt_of_succ_lt_succ hi
      have := ih j hj
      simp only [List.eraseIdx, sumSizesP, List.get]
      omega

/-- A list of positive-size requests has zero total size exactly when empty. -/
theorem sumSizesP_eq_zero_iff (l : List PendingBlockRequest)
    (hpos : ∀ r ∈ l, 0 < r.size) : sumSizesP l = 0 ↔ l = [] := by
  cases l with
  | nil => simp [sumSizesP]
  | cons x xs =>
    have hx : 0 < x.size := hpos x (List.mem_cons_self _ _)
    simp only [sumSizesP]
    constructor
    · intro h; omega
    · intro h; cases h

/-- Characterization of a successful step of the boundary generator. -/
theorem next_pending_request_some_spec (t t' : PieceTracker)
    (pr : PendingBlockRequest) (h : t.next_pending_request = (some pr, t')) :
    pr.offset = t.offset ∧ 0 < pr.size ∧ t'.offset = t.offset + pr.size ∧
    t'.offset ≤ t.piece_size ∧ t'.piece_size = t.piece_size ∧ t'.pid = t.pid ∧
    t'.pending_requests = t.pending_requests ∧
    t'.completed_requests = t.completed_requests ∧
    t'.remaining_bytes = t.remaining_bytes := by
  simp only [PieceTracker.next_pending_request] at h
  split at h
  case isTrue h1 =>
    injection h with h2 h3
    injection h2 with h2
    subst h2 h3
    refine ⟨rfl, by simp [BLOCK_LEN], rfl, ?_, rfl, rfl, rfl, rfl, rfl⟩
    show t.offset + BLOCK_LEN ≤ t.piece_size
    omega
  case isFalse h1 =>
    split at h
    case isTrue h2 =>
      injection h with h3 h4
      injection h3 with h3
      subst h3 h4
      refine ⟨rfl, h2, rfl, ?_, rfl, rfl, rfl, rfl, rfl⟩
      show t.offset + (t.piece_size - t.offset) ≤ t.piece_size
      omega
    case isFalse h2 =>
      injection h with h3 h4
      exact Option.noConfusion h3

/-- Characterization of an exhausted boundary generator. -/
theorem next_pending_request_none_spec (t t' : PieceTracker)
    (h : t.next_pending_request = (none, t')) :
    t' = t ∧ t.piece_size ≤ t.offset := by
  simp only [PieceTracker.next_pending_request] at h
  split at h
  case isTrue h1 =>
    injection h with h2 h3
    exact Option.noConfusion h2
  case isFalse h1 =>
    split at h
    case isTrue h2 =>
      injection h with h2 h3
      exact Option.noConfusion h2
    case isFalse h2 =>
      injection h with h2 h3
      exact ⟨h3.symm, by omega⟩

/-- State effect of the refill loop next_requests_go: it appends at most n new
positive-size requests, advances offset by exactly their total size, keeps the
offset within the piece, and leaves every other field unchanged. -/
theorem next_requests_go_state_spec :
    ∀ (n current_requests queued : Nat) (t : PieceTracker),
      t.offset ≤ t.piece_size →
      ∃ l,
        (PieceTracker.next_requests_go current_requests queued n t).2.pending_requests
            = t.pending_requests ++ l ∧
        l.length ≤ n ∧ (∀ r ∈ l, 0 < r.size) ∧
        (PieceTracker.next_requests_go current_requests queued n t).2.offset
            = t.offset + sumSizesP l ∧
        (PieceTracker.next_requests_go current_requests queued n t).2.offset
            ≤ t.piece_size ∧
        (PieceTracker.next_requests_go current_requests queued n t).2.piece_size
            = t.piece_size ∧
        (PieceTracker.next_requests_go current_requests queued n t).2.pid = t.pid ∧
        (PieceTracker.next_requests_go current_requests queued n t).2.completed_requests
            = t.completed_requests ∧
        (PieceTracker.next_requests_go current_requests queued n t).2.remaining_bytes
            = t.remaining_bytes := by
  intro n
  induction n with
  | zero =>
    intro cur q t h
    exact ⟨[], by simp [PieceTracker.next_requests_go, sumSizesP], by simp, by simp,
      by simp [PieceTracker.next_requests_go, sumSizesP], by
        simpa [PieceTracker.next_requests_go, sumSizesP] using h,
      by simp [PieceTracker.next_requests_go], by simp [PieceTracker.next_requests_go],
      by simp [PieceTracker.next_requests_go], by simp [PieceTracker.next_requests_go]⟩
  | succ m ih =>
    intro cur q t h
    rcases hnp : t.next_pending_request with ⟨opt, t1⟩
    cases opt with
    | some pr =>
      obtain ⟨hoff, hsz, ho1, hole, hps, hpid, hpend, hcomp, hrem⟩ :=
        next_pending_request_some_spec t t1 pr hnp
      have hgo : PieceTracker.next_requests_go cur q (m + 1) t =
          PieceTracker.next_requests_go cur (q + 1) m
            { t1 with pending_requests := t1.pending_requests ++ [pr] } := by
        simp [PieceTracker.next_requests_go, hnp]
      set t2 : PieceTracker := { t1 with pending_requests := t1.pending_requests ++ [pr] }
        with ht2
      have h2 : t2.offset ≤ t2.piece_size := by
        show t1.offset ≤ t1.piece_size
        omega
      obtain ⟨l2, hl2pend, hl2len, hl2pos, hl2off, hl2le, hl2ps, hl2pid, hl2comp,
        hl2rem⟩ := ih cur (q + 1) t2 h2
      rw [hgo]
      refine ⟨pr :: l2, ?_, ?_, ?_, ?_, ?_, ?_, ?_, ?_, ?_⟩
      · rw [hl2pend]
        show t1.pending_requests ++ [pr] ++ l2 = t.pending_requests ++ (pr :: l2)
        rw [hpend, List.append_assoc]
        rfl
      · simpa using Nat.succ_le_succ hl2len
      · intro r hr
        rcases List.mem_cons.mp hr with rfl | hr2
        · exact hsz
        · exact hl2pos r hr2
      · rw [hl2off]
        show t1.offset + sumSizesP l2 = t.offset + sumSizesP (pr :: l2)
        simp only [sumSizesP]
        omega
      · rw [show t2.piece_size = t.piece_size from hps] at hl2le
        exact hl2le
      · rw [hl2ps]; exact hps
      · rw [hl2pid]; exact hpid
      · rw [hl2comp]; exact hcomp
      · rw [hl2rem]; exact hrem
    | none =>
      have hgo : PieceTracker.next_requests_go cur q (m + 1) t =
          (t.pending_requests.take q, t) := by
        simp [PieceTracker.next_requests_go, hnp]
      rw [hgo]
      exact ⟨[], by simp, by simp, by simp, by simp [sumSizesP], by simpa using h,
        rfl, rfl, rfl, rfl⟩

/-- State effect of next_requests: at most the free window capacity is
appended, all other bookkeeping as in the loop lemma. -/
theorem next_requests_state_spec (t : PieceTracker) (h : t.offset ≤ t.piece_size) :
    ∃ l,
      (t.next_requests).2.pending_requests = t.pending_requests ++ l ∧
      l.length ≤ MAX_PENDING_REQUESTS - t.pending_requests.length ∧
      (∀ r ∈ l, 0 < r.size) ∧
      (t.next_requests).2.offset = t.offset + sumSizesP l ∧
      (t.next_requests).2.offset ≤ t.piece_size ∧
      (t.next_requests).2.piece_size = t.piece_size ∧
      (t.next_requests).2.pid = t.pid ∧
      (t.next_requests).2.completed_requests = t.completed_requests ∧
      (t.next_requests).2.remaining_bytes = t.remaining_bytes := by
  by_cases hw : MAX_PENDING_REQUESTS - t.pending_requests.length > 0
  · have hn : t.next_requests = PieceTracker.next_requests_go
        t.pending_requests.length 0 (MAX_PENDING_REQUESTS - t.pending_requests.length) t := by
      simp [PieceTracker.next_requests, hw]
    rw [hn]
    exact next_requests_go_state_spec _ _ _ t h
  · have hn : t.next_requests = ([], t) := by
      simp [PieceTracker.next_requests, hw]
    rw [hn]
    exact ⟨[], by simp, by simp, by simp, by simp [sumSizesP], by simpa using h,
      rfl, rfl, rfl, rfl⟩

/-- A failed request_completed leaves the state untouched. -/
theorem request_completed_error_spec (t t' : PieceTracker)
    (req : CompletedBlockRequest) (e : PeerErr)
    (h : t.request_completed req = (Except.error e, t')) : t' = t := by
  unfold PieceTracker.request_completed at h
  rcases hpos : listPosition (fun pr =>
      pr.offset == req.offset && pr.size == req.size) t.pending_requests with _ | i
  · rw [hpos] at h
    simp only at h
    injection h with h1 h2
    exact h2.symm
  · rw [hpos] at h
    simp only at h
    injection h with h1 h2
    exact Except.noConfusion h1

/-- Characterization of a successful request_completed: some pending entry
matches the completed request by offset and size, it is removed, the payload
is recorded, remaining bytes drop by the declared size, and the returned flag
is the remaining-is-zero test. -/
theorem request_completed_ok_spec (t t' : PieceTracker)
    (req : CompletedBlockRequest) (b : Bool)
    (h : t.request_completed req = (Except.ok b, t')) :
    ∃ (i : Nat) (hi : i < t.pending_requests.length),
      (t.pending_requests.get ⟨i, hi⟩).offset = req.offset ∧
      (t.pending_requests.get ⟨i, hi⟩).size = req.size ∧
      t'.pending_requests = t.pending_requests.eraseIdx i ∧
      t'.remaining_bytes = t.remaining_bytes - req.size ∧
      t'.completed_requests = t.completed_requests ++ [req] ∧
      t'.offset = t.offset ∧ t'.piece_size = t.piece_size ∧ t'.pid = t.pid ∧
      b = (t.remaining_bytes - req.size == 0) := by
  unfold PieceTracker.request_completed at h
  rcases hpos : listPosition (fun pr =>
      pr.offset == req.offset && pr.size == req.size) t.pending_requests with _ | i
  · rw [hpos] at h
    simp only at h
    injection h with h1 h2
    exact Except.noConfusion h1
  · rw [hpos] at h
    simp only at h
    injection h with h1 h2
    injection h1 with h1
    obtain ⟨hi, hp⟩ := listPosition_eq_some_spec _ _ _ hpos
    rw [Bool.and_eq_true, beq_iff_eq, beq_iff_eq] at hp
    exact ⟨i, hi, hp.1, hp.2, by rw [← h2], by rw [← h2], by rw [← h2],
      by rw [← h2], by rw [← h2], by rw [← h2], h1.symm⟩

/-- The invariant holds for a fresh tracker. -/
theorem trackerInv_new (piece_id piece_size : Nat) :
    TrackerInv (PieceTracker.new piece_id piece_size) := by
  constructor <;> simp [PieceTracker.new, sumSizesP, sumSizesC, MAX_PENDING_REQUESTS]

/-- The invariant is preserved by next_requests. -/
theorem trackerInv_next_requests (t : PieceTracker) (h : TrackerInv t) :
    TrackerInv (t.next_requests).2 := by
  obtain ⟨l, hpend, hlen, hpos, hoff, hle, hps, hpid, hcomp, hrem⟩ :=
    next_requests_state_spec t h.offset_le
  constructor
  · rw [hpend, List.length_append]
    have := h.pending_le
    omega
  · rw [hps]
    exact hle
  · rw [hpend, hcomp, hoff, sumSizesP_append]
    have := h.sched
    omega
  · rw [hcomp, hrem, hps]
    exact h.rem
  · rw [hpend]
    intro r hr
    rcases List.mem_append.mp hr with hr1 | hr2
    · exact h.pos r hr1
    · exact hpos r hr2

/-- The invariant is preserved by request_completed, successful or failed. -/
theorem trackerInv_request_completed (t t' : PieceTracker)
    (req : CompletedBlockRequest) (r : Except PeerErr Bool)
    (h : TrackerInv t) (hc : t.request_completed req = (r, t')) :
    TrackerInv t' := by
  cases r with
  | error e =>
    rw [request_completed_error_spec t t' req e hc]
    exact h
  | ok b =>
    obtain ⟨i, hi, hoffeq, hszeq, hpend, hrem, hcomp, hoff, hps, hpid, hb⟩ :=
      request_completed_ok_spec t t' req b hc
    have hsum := sumSizesP_eraseIdx t.pending_requests i hi
    have hszle : req.size ≤ sumSizesP t.pending_requests := by
      rw [← hszeq]
      omega
    have hsumle : sumSizesP t.pending_requests ≤ t.remaining_bytes := by
      have h1 := h.sched
      have h2 := h.rem
      have h3 := h.offset_le
      omega
    constructor
    · rw [hpend]
      have hl := (List.eraseIdx_sublist t.pending_requests i).length_le
      have := h.pending_le
      omega
    · rw [hoff, hps]
      exact h.offset_le
    · rw [hpend, hcomp, hoff, sumSizesC_append]
      have h1 := h.sched
      simp only [sumSizesC]
      rw [hszeq] at hsum
      omega
    · rw [hrem, hcomp, hps, sumSizesC_append]
      have h2 := h.rem
      simp only [sumSizesC]
      omega
    · rw [hpend]
      intro x hx
      exact h.pos x ((List.eraseIdx_sublist t.pending_requests i).subset hx)

/-- Every reachable tracker state satisfies the invariant. -/
theorem reachable_trackerInv (t : PieceTracker) (h : Reachable t) : TrackerInv t := by
  induction h with
  | new piece_id piece_size => exact trackerInv_new piece_id piece_size
  | next t ht ih => exact trackerInv_next_requests t ih
  | complete t req r t' ht hc ih => exact trackerInv_request_completed t t' req r ih hc

/-- C3: for every PieceTracker reachable from new by any sequence of
next_requests and request_completed calls, the number of pending requests
never exceeds the window capacity MAX_PENDING_REQUESTS = 5 between calls. -/
theorem pending_window_bounded (t : PieceTracker) (h : Reachable t) :
    t.pending_requests.length ≤ MAX_PENDING_REQUESTS :=
  (reachable_trackerInv t h).pending_le

/-- Witness for C3 at a concrete reachable state. -/
theorem pending_window_bounded_witness :
    ((PieceTracker.new 0 98304).next_requests).2.pending_requests.length
      ≤ MAX_PENDING_REQUESTS :=
  pending_window_bounded _ (Reachable.next _ (Reachable.new 0 98304))

/-- C4: completing a block whose offset and size pair matches no pending
request fails with InvalidBlock and returns the tracker state completely
unchanged (the error path mutates nothing). -/
theorem unmatched_completion_rejected (t : PieceTracker)
    (req : CompletedBlockRequest)
    (h : ∀ pr ∈ t.pending_requests,
      ¬(pr.offset = req.offset ∧ pr.size = req.size)) :
    t.request_completed req = (Except.error PeerErr.InvalidBlock, t) := by
  have hpos : listPosition
      (fun pr => pr.offset == req.offset && pr.size == req.size)
      t.pending_requests = none := by
    rw [listPosition_eq_none_iff]
    intro x hx hcontra
    rw [Bool.and_eq_true, beq_iff_eq, beq_iff_eq] at hcontra
    exact h x hx hcontra
  simp [PieceTracker.request_completed, hpos]

/-- Witness for C4 at a concrete state with a nonempty pending window. -/
theorem unmatched_completion_rejected_witness :
    ((PieceTracker.new 3 20000).next_requests).2.request_completed ⟨0, 999, []⟩
      = (Except.error PeerErr.InvalidBlock,
         ((PieceTracker.new 3 20000).next_requests).2) :=
  unmatched_completion_rejected _ _ (by decide)

/-- C9: in every reachable state remaining_bytes plus the total completed
size equals piece_size, remaining_bytes starts at piece_size, is unchanged
by next_requests, and every successful completion subtracts exactly the
declared size, which never exceeds remaining_bytes, so the subtraction in
request_completed cannot underflow. -/
theorem remaining_bytes_accounting (t : PieceTracker) (h : Reachable t) :
    t.remaining_bytes + sumSizesC t.completed_requests = t.piece_size ∧
    (∀ piece_id piece_size : Nat,
      (PieceTracker.new piece_id piece_size).remaining_bytes = piece_size) ∧
    (t.next_requests).2.remaining_bytes = t.remaining_bytes ∧
    ∀ req b t', t.request_completed req = (Except.ok b, t') →
      req.size ≤ t.remaining_bytes ∧
      t'.remaining_bytes + req.size = t.remaining_bytes := by
  have inv := reachable_trackerInv t h
  refine ⟨inv.rem, fun _ _ => rfl, ?_, ?_⟩
  · obtain ⟨l, _, _, _, _, _, _, _, _, hrem⟩ :=
      next_requests_state_spec t inv.offset_le
    exact hrem
  · intro req b t' hc
    obtain ⟨i, hi, hoffeq, hszeq, hpend, hrem, hcomp, hoff, hps, hpid, hb⟩ :=
      request_completed_ok_spec t t' req b hc
    have hsum := sumSizesP_eraseIdx t.pending_requests i hi
    have h1 := inv.sched
    have h2 := inv.rem
    have h3 := inv.offset_le
    constructor
    · omega
    · rw [hrem]
      omega

/-- Witness for C9 at a concrete reachable state. -/
theorem remaining_bytes_accounting_witness :
    (PieceTracker.new 5 100).remaining_bytes
        + sumSizesC (PieceTracker.new 5 100).completed_requests
        = (PieceTracker.new 5 100).piece_size ∧
    (∀ piece_id piece_size : Nat,
      (PieceTracker.new piece_id piece_size).remaining_bytes = piece_size) ∧
    ((PieceTracker.new 5 100).next_requests).2.remaining_bytes
        = (PieceTracker.new 5 100).remaining_bytes ∧
    ∀ req b t', (PieceTracker.new 5 100).request_completed req
        = (Except.ok b, t') →
      req.size ≤ (PieceTracker.new 5 100).remaining_bytes ∧
      t'.remaining_bytes + req.size = (PieceTracker.new 5 100).remaining_bytes :=
  remaining_bytes_accounting _ (Reachable.new 5 100)

/-- C10: request_completed matches a completed block against the pending
window by its declared offset and size fields only and never inspects the
payload: any payload list, of any length, completes a matching pending
request, and remaining_bytes drops by the declared size. -/
theorem completion_ignores_payload (t : PieceTracker) (o s : Nat)
    (payload : List Nat)
    (h : PendingBlockRequest.mk o s ∈ t.pending_requests) :
    ∃ t', t.request_completed ⟨o, s, payload⟩
        = (Except.ok (t.remaining_bytes - s == 0), t') ∧
      t'.remaining_bytes = t.remaining_bytes - s ∧
      t'.completed_requests = t.completed_requests ++ [⟨o, s, payload⟩] := by
  rcases hpos : listPosition (fun pr => pr.offset == o && pr.size == s)
      t.pending_requests with _ | i
  · exfalso
    have hnone := (listPosition_eq_none_iff _ _).mp hpos _ h
    simp at hnone
  · refine ⟨{ t with
        pending_requests := t.pending_requests.eraseIdx i,
        remaining_bytes := t.remaining_bytes - s,
        completed_requests := t.completed_requests ++ [⟨o, s, payload⟩] },
      ?_, rfl, rfl⟩
    simp [PieceTracker.request_completed, hpos]

/-- Witness for C10: a payload of length 3 completes the pending request of
declared size 3616. -/
theorem completion_ignores_payload_witness :
    ∃ t', (((PieceTracker.new 0 20000).next_requests).2.request_completed
          ⟨16384, 3616, [1, 2, 3]⟩)
        = (Except.ok
            (((PieceTracker.new 0 20000).next_requests).2.remaining_bytes
              - 3616 == 0), t') ∧
      t'.remaining_bytes
        = ((PieceTracker.new 0 20000).next_requests).2.remaining_bytes - 3616 ∧
      t'.completed_requests
        = ((PieceTracker.new 0 20000).next_requests).2.completed_requests
            ++ [⟨16384, 3616, [1, 2, 3]⟩] :=
  completion_ignores_payload _ 16384 3616 [1, 2, 3] (by decide)

/-- C5: once the whole piece has been scheduled, a successful completion
returns Ok true exactly on the call that empties the pending window, i.e.
the call delivering the last outstanding block, and at that point
remaining_bytes is exactly zero; every earlier successful completion
returns Ok false. -/
theorem completion_signal_iff_last (t t' : PieceTracker)
    (req : CompletedBlockRequest) (b : Bool) (h : Reachable t)
    (hall : t.offset = t.piece_size)
    (hc : t.request_completed req = (Except.ok b, t')) :
    (b = true ↔ t'.pending_requests = []) ∧
    (t'.pending_requests = [] → t'.remaining_bytes = 0) ∧
    (b = false ↔ t'.pending_requests ≠ []) := by
  have inv := reachable_trackerInv t h
  obtain ⟨i, hi, hoffeq, hszeq, hpend, hrem, hcomp, hoff, hps, hpid, hb⟩ :=
    request_completed_ok_spec t t' req b hc
  have hsum := sumSizesP_eraseIdx t.pending_requests i hi
  have h1 := inv.sched
  have h2 := inv.rem
  have hpos' : ∀ r ∈ t.pending_requests.eraseIdx i, 0 < r.size :=
    fun r hr => inv.pos r ((List.eraseIdx_sublist t.pending_requests i).subset hr)
  have hzero := sumSizesP_eq_zero_iff _ hpos'
  have hkey : t.remaining_bytes - req.size
      = sumSizesP (t.pending_requests.eraseIdx i) := by
    omega
  have hmain : b = true ↔ t'.pending_requests = [] := by
    rw [hb, hpend, beq_iff_eq, hkey, hzero]
  refine ⟨hmain, ?_, ?_⟩
  · intro hemp
    rw [hpend] at hemp
    rw [hrem, hkey, hemp]
    rfl
  · rw [Bool.eq_false_iff]
    exact not_congr hmain

/-- Witness for C5: completing the only block of a fully scheduled
single-block piece returns Ok true with an empty window and zero
remaining bytes. -/
theorem completion_signal_iff_last_witness :
    (true = true ↔ oneBlockDone.pending_requests = []) ∧
    (oneBlockDone.pending_requests = [] → oneBlockDone.remaining_bytes = 0) ∧
    (true = false ↔ oneBlockDone.pending_requests ≠ []) :=
  completion_signal_iff_last oneBlockWindow oneBlockDone ⟨0, 16384, []⟩ true
    (Reachable.next _ (Reachable.new 0 16384)) (by decide) rfl

/-- The sort performed by validate_piece is a permutation of its input. -/
theorem sortBlocks_perm (l : List CompletedBlockRequest) :
    (sortBlocks l).Perm l :=
  List.perm_insertionSort _ l

/-- The sort performed by validate_piece sorts by ascending offset. -/
theorem sortBlocks_sorted (l : List CompletedBlockRequest) :
    (sortBlocks l).Sorted blockLE :=
  List.sorted_insertionSort _ l

/-- Two permutations of the same blocks with pairwise distinct offsets sort
to the same list. -/
theorem sortBlocks_eq_of_perm (l₁ l₂ : List CompletedBlockRequest)
    (hperm : l₁.Perm l₂)
    (hnd : (l₁.map CompletedBlockRequest.offset).Nodup) :
    sortBlocks l₁ = sortBlocks l₂ := by
  have hp : (sortBlocks l₁).Perm (sortBlocks l₂) :=
    (sortBlocks_perm l₁).trans (hperm.trans (sortBlocks_perm l₂).symm)
  refine hp.eq_of_sorted ?_ (sortBlocks_sorted l₁) (sortBlocks_sorted l₂)
  intro a b ha hb hab hba
  have ha1 : a ∈ l₁ := (sortBlocks_perm l₁).subset ha
  have hb1 : b ∈ l₁ := hperm.symm.subset ((sortBlocks_perm l₂).subset hb)
  exact List.inj_on_of_nodup_map hnd ha1 hb1 (Nat.le_antisymm hab hba)

/-- C6: validation is order-independent in the completion order: two trackers
holding the same blocks (with pairwise distinct offsets) in any two orders
feed the same byte concatenation to the hasher and produce identical
validation results, and a successful validation returns the blocks sorted
ascending by offset. -/
theorem validate_order_independent (sha1 : List Nat → List Nat) (m : Metainfo)
    (t1 t2 : PieceTracker) (hpid : t1.pid = t2.pid)
    (hperm : t1.completed_requests.Perm t2.completed_requests)
    (hnd : (t1.completed_requests.map CompletedBlockRequest.offset).Nodup) :
    concatBytes (sortBlocks t1.completed_requests)
      = concatBytes (sortBlocks t2.completed_requests) ∧
    t1.validate_piece sha1 m = t2.validate_piece sha1 m ∧
    ∀ vp, t1.validate_piece sha1 m = some (Except.ok (some vp)) →
      vp.blocks.Sorted blockLE := by
  have hsort := sortBlocks_eq_of_perm _ _ hperm hnd
  refine ⟨congrArg concatBytes hsort, ?_, ?_⟩
  · simp only [PieceTracker.validate_piece]
    rw [hsort, hpid]
  · intro vp hvp
    simp only [PieceTracker.validate_piece] at hvp
    split at hvp
    · exact Option.noConfusion hvp
    · split at hvp
      · injection hvp with hvp
        injection hvp with hvp
        injection hvp with hvp
        rw [← hvp]
        exact sortBlocks_sorted t1.completed_requests
      · injection hvp with hvp
        injection hvp with hvp
        exact Option.noConfusion hvp

/-- Witness for C6: the same two blocks delivered in the two possible orders. -/
theorem validate_order_independent_witness :
    concatBytes (sortBlocks
        ({ PieceTracker.new 0 3 with completed_requests :=
            [⟨0, 2, [10, 11]⟩, ⟨2, 1, [12]⟩] } : PieceTracker).completed_requests)
      = concatBytes (sortBlocks
        ({ PieceTracker.new 0 3 with completed_requests :=
            [⟨2, 1, [12]⟩, ⟨0, 2, [10, 11]⟩] } : PieceTracker).completed_requests) ∧
    PieceTracker.validate_piece (fun _ => [7])
        ({ PieceTracker.new 0 3 with completed_requests :=
            [⟨0, 2, [10, 11]⟩, ⟨2, 1, [12]⟩] } : PieceTracker) ⟨[[7]]⟩
      = PieceTracker.validate_piece (fun _ => [7])
        ({ PieceTracker.new 0 3 with completed_requests :=
            [⟨2, 1, [12]⟩, ⟨0, 2, [10, 11]⟩] } : PieceTracker) ⟨[[7]]⟩ ∧
    ∀ vp, PieceTracker.validate_piece (fun _ => [7])
        ({ PieceTracker.new 0 3 with completed_requests :=
            [⟨0, 2, [10, 11]⟩, ⟨2, 1, [12]⟩] } : PieceTracker) ⟨[[7]]⟩
        = some (Except.ok (some vp)) →
      vp.blocks.Sorted blockLE :=
  validate_order_independent (fun _ => [7]) ⟨[[7]]⟩ _ _ rfl (by decide) (by decide)

/-- C7: when the digest table has an entry for the piece, a digest mismatch
yields the explicit not-validated outcome Ok none, a normal value and not an
error, and a byte-for-byte match yields Ok some of a ValidatedPiece carrying
the same piece id. -/
theorem validate_digest_dichotomy (sha1 : List Nat → List Nat)
    (t : PieceTracker) (m : Metainfo) (expected : List Nat)
    (hlook : m.piece_hashes[t.pid]? = some expected) :
    (expected ≠ sha1 (concatBytes (sortBlocks t.completed_requests)) →
      t.validate_piece sha1 m = some (Except.ok none)) ∧
    (expected = sha1 (concatBytes (sortBlocks t.completed_requests)) →
      t.validate_piece sha1 m
        = some (Except.ok (some ⟨t.pid, sortBlocks t.completed_requests⟩))) := by
  constructor <;> intro hh <;> simp [PieceTracker.validate_piece, hlook, hh]

/-- Witness for C7 with a table holding the digest of the empty piece. -/
theorem validate_digest_dichotomy_witness :
    (([1] : List Nat) ≠ (fun _ => [1]) (concatBytes (sortBlocks
        (PieceTracker.new 0 0).completed_requests)) →
      (PieceTracker.new 0 0).validate_piece (fun _ => [1]) ⟨[[1]]⟩
        = some (Except.ok none)) ∧
    (([1] : List Nat) = (fun _ => [1]) (concatBytes (sortBlocks
        (PieceTracker.new 0 0).completed_requests)) →
      (PieceTracker.new 0 0).validate_piece (fun _ => [1]) ⟨[[1]]⟩
        = some (Except.ok (some ⟨(PieceTracker.new 0 0).pid,
            sortBlocks (PieceTracker.new 0 0).completed_requests⟩))) :=
  validate_digest_dichotomy (fun _ => [1]) (PieceTracker.new 0 0) ⟨[[1]]⟩ [1] rfl

/-- C8: validate_piece hits its panic (the expect on the digest-table lookup)
exactly when the piece id has no entry in the table; whenever the id indexes
a valid entry the function returns normally. -/
theorem validate_panic_iff_unknown_pid (sha1 : List Nat → List Nat)
    (t : PieceTracker) (m : Metainfo) :
    (t.validate_piece sha1 m = none ↔ m.piece_hashes[t.pid]? = none) ∧
    (t.pid < m.piece_hashes.length →
      ∃ r, t.validate_piece sha1 m = some r) := by
  constructor
  · rcases hlook : m.piece_hashes[t.pid]? with _ | expected
    · simp [PieceTracker.validate_piece, hlook]
    · by_cases hh : expected
          = sha1 (concatBytes (sortBlocks t.completed_requests)) <;>
        simp [PieceTracker.validate_piece, hlook, hh]
  · intro hlt
    rcases hlook : m.piece_hashes[t.pid]? with _ | expected
    · rw [List.getElem?_eq_none_iff] at hlook
      omega
    · by_cases hh : expected
          = sha1 (concatBytes (sortBlocks t.completed_requests))
      · exact ⟨Except.ok (some ⟨t.pid, sortBlocks t.completed_requests⟩),
          by simp [PieceTracker.validate_piece, hlook, hh]⟩
      · exact ⟨Except.ok none,
          by simp [PieceTracker.validate_piece, hlook, hh]⟩

/-- Witness for C8 at a concrete tracker and one-entry digest table. -/
theorem validate_panic_iff_unknown_pid_witness :
    ((PieceTracker.new 0 0).validate_piece (fun _ => [1]) ⟨[[1]]⟩ = none ↔
      (Metainfo.mk [[1]]).piece_hashes[(PieceTracker.new 0 0).pid]? = none) ∧
    ((PieceTracker.new 0 0).pid < (Metainfo.mk [[1]]).piece_hashes.length →
      ∃ r, (PieceTracker.new 0 0).validate_piece (fun _ => [1]) ⟨[[1]]⟩
        = some r) :=
  validate_panic_iff_unknown_pid (fun _ => [1]) (PieceTracker.new 0 0) ⟨[[1]]⟩

/-- Once the whole piece is scheduled the boundary generator is exhausted. -/
theorem drainFuel_done (fuel : Nat) (t : PieceTracker)
    (h : t.piece_size ≤ t.offset) : PieceTracker.drainFuel fuel t = [] := by
  cases fuel with
  | zero => rfl
  | succ m =>
    have h0 : t.piece_size - t.offset = 0 := by omega
    have hnp : t.next_pending_request = (none, t) := by
      simp [PieceTracker.next_pending_request, h0]
    simp [PieceTracker.drainFuel, hnp]

/-- The size emitted by a successful generator step: a full block when more
than BLOCK_LEN bytes are unscheduled, the exact remainder otherwise. -/
theorem next_pending_request_size_cases (t t' : PieceTracker)
    (pr : PendingBlockRequest) (h : t.next_pending_request = (some pr, t')) :
    (BLOCK_LEN < t.piece_size - t.offset ∧ pr.size = BLOCK_LEN) ∨
    (0 < t.piece_size - t.offset ∧ t.piece_size - t.offset ≤ BLOCK_LEN ∧
      pr.size = t.piece_size - t.offset) := by
  simp only [PieceTracker.next_pending_request] at h
  split at h
  case isTrue h1 =>
    injection h with h2 h3
    injection h2 with h2
    subst h2
    exact Or.inl ⟨h1, rfl⟩
  case isFalse h1 =>
    split at h
    case isTrue h2 =>
      injection h with h3 h4
      injection h3 with h3
      subst h3
      exact Or.inr ⟨h2, by omega, rfl⟩
    case isFalse h2 =>
      injection h with h3 h4
      exact Option.noConfusion h3

/-- Main tiling lemma for the boundary generator: with enough fuel, draining
from any in-range offset tiles the unscheduled byte range, with every
emitted request a full block except the last, whose size is the residue of
the unscheduled bytes modulo BLOCK_LEN when nonzero and BLOCK_LEN else. -/
theorem drainFuel_spec : ∀ (fuel : Nat) (t : PieceTracker),
    t.offset ≤ t.piece_size →
    t.piece_size - t.offset ≤ fuel * BLOCK_LEN →
    tiles t.offset t.piece_size (PieceTracker.drainFuel fuel t) ∧
    (∀ r ∈ (PieceTracker.drainFuel fuel t).dropLast, r.size = BLOCK_LEN) ∧
    (∀ r, (PieceTracker.drainFuel fuel t).getLast? = some r →
      r.size = if (t.piece_size - t.offset) % BLOCK_LEN = 0 then BLOCK_LEN
               else (t.piece_size - t.offset) % BLOCK_LEN) := by
  intro fuel
  induction fuel with
  | zero =>
    intro t h hfuel
    have heq : t.piece_size = t.offset := by omega
    refine ⟨?_, by simp [PieceTracker.drainFuel], by simp [PieceTracker.drainFuel]⟩
    show tiles t.offset t.piece_size []
    simpa [tiles] using heq.symm
  | succ m ih =>
    intro t h hfuel
    rcases hnp : t.next_pending_request with ⟨opt, t1⟩
    cases opt with
    | none =>
      obtain ⟨-, hle⟩ := next_pending_request_none_spec t t1 hnp
      have heq : t.piece_size = t.offset := by omega
      have hdrain : PieceTracker.drainFuel (m + 1) t = [] := drainFuel_done _ _ hle
      refine ⟨?_, by simp [hdrain], by simp [hdrain]⟩
      rw [hdrain]
      show tiles t.offset t.piece_size []
      simpa [tiles] using heq.symm
    | some pr =>
      obtain ⟨hoff, hsz, ho1, hole, hps, hpid, hpend, hcomp, hrem⟩ :=
        next_pending_request_some_spec t t1 pr hnp
      have hdrain : PieceTracker.drainFuel (m + 1) t
          = pr :: PieceTracker.drainFuel m t1 := by
        simp [PieceTracker.drainFuel, hnp]
      rcases next_pending_request_size_cases t t1 pr hnp with ⟨hgt, hszB⟩ |
        ⟨hpos0, hleB, hszR⟩
      · -- a full block was emitted and more bytes remain unscheduled
        have h1le : t1.offset ≤ t1.piece_size := by omega
        have h1fuel : t1.piece_size - t1.offset ≤ m * BLOCK_LEN := by
          have : t1.offset = t.offset + BLOCK_LEN := by omega
          simp only [BLOCK_LEN] at *
          omega
        obtain ⟨iht, ihdrop, ihlast⟩ := ih t1 h1le h1fuel
        have hmod : (t1.piece_size - t1.offset) % BLOCK_LEN
            = (t.piece_size - t.offset) % BLOCK_LEN := by
          have e1 : t1.offset = t.offset + BLOCK_LEN := by omega
          have e2 : t.piece_size - t.offset
              = (t1.piece_size - t1.offset) + BLOCK_LEN := by omega
          rw [e2, Nat.add_mod_right]
        have hne : PieceTracker.drainFuel m t1 ≠ [] := by
          intro hemp
          rw [hemp] at iht
          have : t1.offset = t1.piece_size := iht
          omega
        rcases hl1 : PieceTracker.drainFuel m t1 with _ | ⟨x, xs⟩
        · exact absurd hl1 hne
        · rw [hl1] at iht ihdrop ihlast
          rw [hdrain, hl1]
          refine ⟨?_, ?_, ?_⟩
          · show pr.offset = t.offset ∧ 0 < pr.size ∧
              tiles (t.offset + pr.size) t.piece_size (x :: xs)
            refine ⟨hoff, hsz, ?_⟩
            rw [show t.offset + pr.size = t1.offset by omega,
              show t.piece_size = t1.piece_size from hps.symm]
            exact iht
          · intro r hr
            rw [show (pr :: x :: xs).dropLast = pr :: (x :: xs).dropLast from rfl]
              at hr
            rcases List.mem_cons.mp hr with rfl | hr2
            · exact hszB
            · exact ihdrop r hr2
          · intro r hr
            rw [List.getLast?_cons_cons] at hr
            rw [← hmod]
            exact ihlast r hr
      · -- the final, possibly shorter, request was emitted
        have hofft1 : t1.offset = t1.piece_size := by omega
        have hdone : PieceTracker.drainFuel m t1 = [] :=
          drainFuel_done _ _ (by omega)
        rw [hdrain, hdone]
        refine ⟨?_, by simp, ?_⟩
        · show pr.offset = t.offset ∧ 0 < pr.size ∧
            tiles (t.offset + pr.size) t.piece_size []
          refine ⟨hoff, hsz, ?_⟩
          show t.offset + pr.size = t.piece_size
          omega
        · intro r hr
          have hr' : r = pr := by
            simpa using hr.symm
          subst hr'
          by_cases hRB : t.piece_size - t.offset = BLOCK_LEN
          · rw [hRB, Nat.mod_self]
            simp [hszR, hRB]
          · have hlt : t.piece_size - t.offset < BLOCK_LEN := by omega
            rw [Nat.mod_eq_of_lt hlt]
            have : ¬ t.piece_size - t.offset = 0 := by omega
            simp [hszR, this]

/-- A tiling accounts exactly for the bytes between its bounds. -/
theorem tiles_sum : ∀ (l : List PendingBlockRequest) (a b : Nat),
    tiles a b l → a + sumSizesP l = b := by
  intro l
  induction l with
  | nil =>
    intro a b ht
    have : a = b := ht
    simp [sumSizesP, this]
  | cons r rs ih =>
    intro a b ht
    obtain ⟨h1, h2, h3⟩ := ht
    have := ih (a + r.size) b h3
    simp only [sumSizesP]
    omega

/-- Every request of a tiling starts at or after the lower bound. -/
theorem tiles_le : ∀ (l : List PendingBlockRequest) (a b : Nat),
    tiles a b l → ∀ y ∈ l, a ≤ y.offset := by
  intro l
  induction l with
  | nil => intro a b ht y hy; cases hy
  | cons r rs ih =>
    intro a b ht y hy
    obtain ⟨h1, h2, h3⟩ := ht
    rcases List.mem_cons.mp hy with rfl | hy2
    · omega
    · have := ih (a + r.size) b h3 y hy2
      omega

/-- The requests of a tiling have strictly increasing offsets. -/
theorem tiles_increasing : ∀ (l : List PendingBlockRequest) (a b : Nat),
    tiles a b l → l.Pairwise (fun x y => x.offset < y.offset) := by
  intro l
  induction l with
  | nil => intro a b ht; exact List.Pairwise.nil
  | cons r rs ih =>
    intro a b ht
    obtain ⟨h1, h2, h3⟩ := ht
    refine List.Pairwise.cons ?_ (ih (a + r.size) b h3)
    intro y hy
    have := tiles_le rs (a + r.size) b h3 y hy
    omega

/-- C2: repeatedly calling next_pending_request on a fresh tracker until it
returns None tiles the byte range from 0 to piece_size exactly, with no gaps
or overlaps, strictly increasing offsets, sizes summing to piece_size, every
request a full BLOCK_LEN block except the last, whose size is
piece_size mod BLOCK_LEN when that is nonzero and BLOCK_LEN otherwise; for
piece_size 20000 the requests are (0, 16384) then (16384, 3616). -/
theorem scheduler_tiles_piece (piece_id S : Nat) :
    tiles 0 S ((PieceTracker.new piece_id S).drainAll) ∧
    sumSizesP ((PieceTracker.new piece_id S).drainAll) = S ∧
    ((PieceTracker.new piece_id S).drainAll).Pairwise
      (fun x y => x.offset < y.offset) ∧
    (∀ r ∈ ((PieceTracker.new piece_id S).drainAll).dropLast,
      r.size = BLOCK_LEN) ∧
    (∀ r, ((PieceTracker.new piece_id S).drainAll).getLast? = some r →
      r.size = if S % BLOCK_LEN = 0 then BLOCK_LEN else S % BLOCK_LEN) ∧
    (PieceTracker.new 7 20000).drainAll = [⟨0, 16384⟩, ⟨16384, 3616⟩] := by
  have hfa : (PieceTracker.new piece_id S).offset
      ≤ (PieceTracker.new piece_id S).piece_size := Nat.zero_le S
  have hfb : (PieceTracker.new piece_id S).piece_size
        - (PieceTracker.new piece_id S).offset
      ≤ ((PieceTracker.new piece_id S).piece_size / BLOCK_LEN + 1)
          * BLOCK_LEN := by
    show S - 0 ≤ (S / BLOCK_LEN + 1) * BLOCK_LEN
    simp only [BLOCK_LEN]
    have h1 := Nat.div_add_mod S 16384
    have h2 : S % 16384 < 16384 := Nat.mod_lt _ (by omega)
    omega
  obtain ⟨ht, hdrop, hlast⟩ :=
    drainFuel_spec ((PieceTracker.new piece_id S).piece_size / BLOCK_LEN + 1)
      (PieceTracker.new piece_id S) hfa hfb
  have ht0 : tiles 0 S ((PieceTracker.new piece_id S).drainAll) := ht
  refine ⟨ht0, ?_, tiles_increasing _ _ _ ht0, hdrop, ?_, by decide⟩
  · have hs : 0 + sumSizesP ((PieceTracker.new piece_id S).drainAll) = S :=
      tiles_sum _ 0 S ht0
    omega
  · intro r hr
    exact hlast r hr

/-- Witness for C2 at piece size 20000. -/
theorem scheduler_tiles_piece_witness :
    tiles 0 20000 ((PieceTracker.new 7 20000).drainAll) ∧
    (PieceTracker.new 7 20000).drainAll = [⟨0, 16384⟩, ⟨16384, 3616⟩] :=
  ⟨(scheduler_tiles_piece 7 20000).1, (scheduler_tiles_piece 7 20000).2.2.2.2.2⟩

/-- C1 (failing input): in the reachable six-block state with three old
pending requests and one still-unscheduled block, next_requests appends the
newly created request (81920, 16384) to the pending window but returns the
batch [(32768, 16384)] — a request that was already pending before the call
— and does not return the newly added request at all. This is the early
return of pending_requests[..queued] in next_requests, which slices from
index 0 instead of from the pre-call length; the spec (return exactly the
newly added requests) matches the non-early path pending_requests[
current_requests..], so the code, not the claim, is wrong here. -/
theorem next_requests_returns_stale_request :
    Reachable sixBlockAfterTwo ∧
    sixBlockAfterTwo.pending_requests
      = [⟨32768, 16384⟩, ⟨49152, 16384⟩, ⟨65536, 16384⟩] ∧
    (sixBlockAfterTwo.next_requests).2.pending_requests
      = [⟨32768, 16384⟩, ⟨49152, 16384⟩, ⟨65536, 16384⟩, ⟨81920, 16384⟩] ∧
    (sixBlockAfterTwo.next_requests).1 = [⟨32768, 16384⟩] ∧
    (⟨32768, 16384⟩ : PendingBlockRequest) ∈ sixBlockAfterTwo.pending_requests ∧
    (⟨81920, 16384⟩ : PendingBlockRequest) ∉ (sixBlockAfterTwo.next_requests).1 := by
  refine ⟨?_, by decide, by decide, by decide, by decide, by decide⟩
  exact Reachable.complete _ ⟨16384, 16384, []⟩ _ _
    (Reachable.complete _ ⟨0, 16384, []⟩ _ _
      (Reachable.next _ (Reachable.new 0 98304)) rfl) rfl
